import Mathlib

/-!
Verification of the adaptive intersection control loop
(`src/controllers/traffic_light_controller.py`, `src/utils/traffic_analysis.py`).

The controller is embedded as an explicit transition system: the
autonomous polling loop, the externally triggered `update`, and `reset`
become events acting on a record of the controller's fields.  Wall-clock
time (`time.time()`) is abstracted as an integer timestamp carried in the
state; the `update` call's internal `sleep(yellow_time)` is split into a
start event and a finish event so that the intermediate yellow-holding
state is observable, exactly as an external observer of the Python object
would see it while the lock is held.
-/

namespace Traffic

/-- `LightState` enumeration from `traffic_light_controller.py`. -/
inductive LightState where
  | RED
  | YELLOW
  | GREEN
deriving DecidableEq, Repr

/-- The fixed approach set `self.directions = ["north","east","south","west"]`. -/
inductive Direction where
  | north
  | east
  | south
  | west
deriving DecidableEq, Repr

/-- Cyclic successor: `(directions.index(d) + 1) % len(directions)`. -/
def Direction.next : Direction → Direction
  | .north => .east
  | .east => .south
  | .south => .west
  | .west => .north

/-- The four directions in their fixed order. -/
def allDirections : List Direction := [.north, .east, .south, .west]

/-- Timing configuration read by `TrafficLightController.__init__`
(seconds, abstracted as integers). -/
structure Config where
  default_green_time : ℤ
  min_green_time : ℤ
  max_green_time : ℤ
  yellow_time : ℤ
deriving DecidableEq, Repr

/-- The lock/progress mode: `idle` means no `update` call is in progress;
`midUpdate d g` records an `update` call that has turned the active
approach yellow and is sleeping for the clearance interval before
switching to direction `d` with (already clamped) duration `g`. -/
inductive Mode where
  | idle
  | midUpdate (direction : Direction) (green_time : ℤ)
deriving DecidableEq, Repr

/-- The mutable fields of `TrafficLightController`, plus the abstracted
wall clock `now` and the update-in-progress marker `mode`. -/
structure CState where
  phases : Direction → LightState
  current_green_direction : Direction
  green_duration : ℤ
  last_change_time : ℤ
  now : ℤ
  running : Bool
  auto_mode : Bool
  mode : Mode

/-- Initial state built by `__init__`: all red, then north set green. -/
def initState (c : Config) : CState where
  phases := fun d => if d = .north then .GREEN else .RED
  current_green_direction := .north
  green_duration := c.default_green_time
  last_change_time := 0
  now := 0
  running := true
  auto_mode := true
  mode := .idle

/-- `max(min(green_time, max_green_time), min_green_time)` from `update`. -/
def clampGreen (c : Config) (g : ℤ) : ℤ :=
  max (min g c.max_green_time) c.min_green_time

/-- Pointwise assignment `current_state[d] = ls`. -/
def setPhase (p : Direction → LightState) (d : Direction) (ls : LightState) :
    Direction → LightState :=
  fun d' => if d' = d then ls else p d'

/-- The loop `for d in self.directions: if d != direction and state[d] != RED:
change d to red` from `update`. -/
def forceOthersRed (p : Direction → LightState) (d : Direction) :
    Direction → LightState :=
  fun d' => if d' ≠ d ∧ p d' ≠ .RED then .RED else p d'

/-- One iteration of `_control_loop` under the lock: green expires to
yellow, or yellow expires to red with the cyclic successor promoted to
green with the default duration. -/
def autoStep (c : Config) (s : CState) : CState :=
  if s.running = true ∧ s.auto_mode = true ∧ s.mode = .idle then
    if s.phases s.current_green_direction = .GREEN then
      if s.green_duration ≤ s.now - s.last_change_time then
        { s with phases := setPhase s.phases s.current_green_direction .YELLOW,
                 last_change_time := s.now }
      else s
    else if s.phases s.current_green_direction = .YELLOW then
      if c.yellow_time ≤ s.now - s.last_change_time then
        let nxt := s.current_green_direction.next
        { s with phases := setPhase (setPhase s.phases s.current_green_direction .RED) nxt .GREEN,
                 current_green_direction := nxt,
                 green_duration := c.default_green_time,
                 last_change_time := s.now }
      else s
    else s
  else s

/-- First half of `update(decision)`: clamp the duration; if the target is
already the active green approach only commit the duration; otherwise, if
the active approach is green turn it yellow and enter the sleeping stage,
else complete the switch immediately (no clearance sleep is taken). -/
def updStartStep (c : Config) (s : CState) (d : Direction) (g : ℤ) : CState :=
  if s.mode = .idle then
    let g' := clampGreen c g
    if d = s.current_green_direction ∧ s.phases d = .GREEN then
      { s with green_duration := g', auto_mode := true }
    else if s.phases s.current_green_direction = .GREEN then
      { s with phases := setPhase s.phases s.current_green_direction .YELLOW,
               auto_mode := false,
               mode := .midUpdate d g' }
    else
      { s with phases := setPhase (forceOthersRed s.phases d) d .GREEN,
               current_green_direction := d,
               green_duration := g',
               last_change_time := s.now,
               auto_mode := true }
  else s

/-- Second half of `update`: the `sleep(yellow_time)` elapses, the old
active approach goes red, every other non-red approach is forced red, the
target goes green and becomes active. -/
def updFinishStep (c : Config) (s : CState) : CState :=
  match s.mode with
  | .idle => s
  | .midUpdate d g' =>
      let t := s.now + c.yellow_time
      let p1 := setPhase s.phases s.current_green_direction .RED
      { s with phases := setPhase (forceOthersRed p1 d) d .GREEN,
               current_green_direction := d,
               green_duration := g',
               last_change_time := t,
               now := t,
               auto_mode := true,
               mode := .idle }

/-- `reset()`: stop the control thread and force every approach red. -/
def resetStep (s : CState) : CState :=
  { s with running := false, phases := fun _ => .RED }

/-- Advance the abstract wall clock (monotone). -/
def tickStep (s : CState) (t : ℤ) : CState :=
  if s.now ≤ t then { s with now := t } else s

/-- Events of the transition system. -/
inductive Ev where
  | tick (t : ℤ)
  | auto
  | updStart (d : Direction) (g : ℤ)
  | updFinish
  | reset
deriving DecidableEq, Repr

/-- One transition. -/
def stepF (c : Config) (s : CState) : Ev → CState
  | .tick t => tickStep s t
  | .auto => autoStep c s
  | .updStart d g => updStartStep c s d g
  | .updFinish => updFinishStep c s
  | .reset => resetStep s

/-- Run a sequence of events. -/
def run (c : Config) (s : CState) (evs : List Ev) : CState :=
  evs.foldl (stepF c) s

/-- `t` is reachable from `s` by some event sequence. -/
def ReachableFrom (c : Config) (s t : CState) : Prop :=
  ∃ evs : List Ev, run c s evs = t

/-- `t` is reachable from the initial state. -/
def Reachable (c : Config) (t : CState) : Prop :=
  ReachableFrom c (initState c) t

/-- The shipped default configuration from `config/settings.py`. -/
def cfg0 : Config := ⟨30, 10, 90, 3⟩

/-! ### Phase-change notifications

Each `_change_to_green/yellow/red` call logs a transition; we record them
as `(approach, new phase, wall-clock time)` triples so that temporal
properties about observed phases can be stated. -/

/-- A phase-change notification, one per `_change_to_*` call. -/
structure Notif where
  direction : Direction
  phase : LightState
  time : ℤ
deriving DecidableEq, Repr

/-- The notifications emitted by one event, in program order. -/
def stepLog (c : Config) (s : CState) : Ev → List Notif
  | .tick _ => []
  | .auto =>
      if s.running = true ∧ s.auto_mode = true ∧ s.mode = .idle then
        if s.phases s.current_green_direction = .GREEN then
          if s.green_duration ≤ s.now - s.last_change_time then
            [⟨s.current_green_direction, .YELLOW, s.now⟩]
          else []
        else if s.phases s.current_green_direction = .YELLOW then
          if c.yellow_time ≤ s.now - s.last_change_time then
            [⟨s.current_green_direction, .RED, s.now⟩,
             ⟨s.current_green_direction.next, .GREEN, s.now⟩]
          else []
        else []
      else []
  | .updStart d _ =>
      if s.mode = .idle then
        if d = s.current_green_direction ∧ s.phases d = .GREEN then []
        else if s.phases s.current_green_direction = .GREEN then
          [⟨s.current_green_direction, .YELLOW, s.now⟩]
        else
          (allDirections.filter (fun d' => decide (d' ≠ d ∧ s.phases d' ≠ .RED))).map
            (fun d' => ⟨d', .RED, s.now⟩) ++ [⟨d, .GREEN, s.now⟩]
      else []
  | .updFinish =>
      match s.mode with
      | .idle => []
      | .midUpdate d _ =>
          let t := s.now + c.yellow_time
          let p1 := setPhase s.phases s.current_green_direction .RED
          ⟨s.current_green_direction, .RED, t⟩ ::
            ((allDirections.filter (fun d' => decide (d' ≠ d ∧ p1 d' ≠ .RED))).map
              (fun d' => ⟨d', .RED, t⟩) ++ [⟨d, .GREEN, t⟩])
  | .reset => allDirections.map (fun d' => ⟨d', .RED, s.now⟩)

/-- All notifications emitted while running a sequence of events. -/
def runLog (c : Config) (s : CState) : List Ev → List Notif
  | [] => []
  | e :: rest => stepLog c s e ++ runLog c (stepF c s e) rest

/-- Seed entries recording the initial phase of every approach. -/
def initLog (c : Config) : List Notif :=
  allDirections.map (fun d => ⟨d, (initState c).phases d, 0⟩)

/-- The phase history `(phase, time)` of approach `a` along `evs`. -/
def phaseHistory (c : Config) (evs : List Ev) (a : Direction) :
    List (LightState × ℤ) :=
  ((initLog c ++ runLog c (initState c) evs).filter
    (fun n => decide (n.direction = a))).map (fun n => (n.phase, n.time))

/-- Clearance discipline over one approach's phase history: never
`GREEN` directly to `RED`, and every `GREEN`→`YELLOW`→`RED` block holds
the yellow for at least `yt`. -/
def yellowRespected (yt : ℤ) : List (LightState × ℤ) → Bool
  | (.GREEN, _) :: (.RED, _) :: _ => false
  | (.GREEN, _) :: (.YELLOW, t1) :: (.RED, t2) :: rest =>
      decide (yt ≤ t2 - t1) && yellowRespected yt ((.YELLOW, t1) :: (.RED, t2) :: rest)
  | _ :: rest => yellowRespected yt rest
  | [] => true

/-- Claimed yellow-clearance property for an event sequence. -/
def YellowClearanceRespected (c : Config) (evs : List Ev) : Prop :=
  ∀ a : Direction, yellowRespected c.yellow_time (phaseHistory c evs a) = true

/-! ### Congestion analyzer (`utils/traffic_analysis.py`)

Detections are abstracted by their count per camera id: `analyze` only
takes `len(camera_detections)`.  Mappings are association lists in dict
insertion order; the per-direction history `vehicle_counts` is a total
function defaulting to `[]` (a `defaultdict(list)`). -/

/-- A `traffic_state[direction]` record produced by `analyze`. -/
structure Reading where
  vehicle_count : ℕ
  avg_count : ℚ
  congestion_level : ℚ
deriving DecidableEq, Repr

/-- `self.max_history = 10`. -/
def max_history : ℕ := 10

/-- Append a count; drop the oldest entry when the history length exceeds
`max_history` (`append` then `pop(0)`). -/
def pushCount (h : List ℕ) (n : ℕ) : List ℕ :=
  let h1 := h ++ [n]
  if max_history < h1.length then h1.tail else h1

/-- `np.mean` of a history, as an exact rational. -/
def listAvg (h : List ℕ) : ℚ := (h.map (fun n => (n : ℚ))).sum / h.length

/-- The reading built in one iteration of `analyze`'s loop, from the prior
history `h` and the fresh count `n`. -/
def readingOf (thr : ℚ) (h : List ℕ) (n : ℕ) : Reading :=
  let avg := listAvg (pushCount h n)
  ⟨n, avg, min (avg / thr) 1⟩

/-- `TrafficAnalyzer.analyze`: updates the histories and reports one
reading per present camera id, in iteration order. -/
def analyze (thr : ℚ) (counts : List (String × ℕ)) (hist : String → List ℕ) :
    (String → List ℕ) × List (String × Reading) :=
  match counts with
  | [] => (hist, [])
  | (k, n) :: rest =>
      let res := analyze thr rest (Function.update hist k (pushCount (hist k) n))
      (res.1, (k, readingOf thr (hist k) n) :: res.2)

/-- The scan in `make_decision`, carrying `max_congestion` (started at
`-1`) and `most_congested_direction` (started at `None`). -/
def findMostCongested : List (String × Reading) → ℚ → Option String → ℚ × Option String
  | [], m, best => (m, best)
  | (d, st) :: rest, m, best =>
      if m < st.congestion_level then
        findMostCongested rest st.congestion_level (some d)
      else
        findMostCongested rest m best

/-- Python `int()` on a rational: truncation toward zero. -/
def pyInt (q : ℚ) : ℤ := if q < 0 then -⌊-q⌋ else ⌊q⌋

/-- `TrafficAnalyzer.make_decision`. -/
def make_decision (traffic_state : List (String × Reading)) : String × ℤ :=
  let r := findMostCongested traffic_state (-1) none
  match r.2 with
  | none => ("north", 30)
  | some d => (d, 20 + pyInt (r.1 * 40))

/-- Index of a label in the fixed cyclic ordering; labels outside the
approach set sort last.  Used only to state the spec's tie-breaking rule. -/
def cyclicIndex (d : String) : ℕ :=
  if d = "north" then 0 else if d = "east" then 1 else if d = "south" then 2
  else if d = "west" then 3 else 4

/-- Modelled from the spec's words, for comparison with `make_decision`:
select the approach with the greatest congestion level, ties broken by
lowest index in the fixed cyclic ordering. -/
def specTieBreakSelect (readings : List (String × Reading)) : Option String :=
  (readings.foldl (fun acc p =>
    match acc with
    | none => some p
    | some q =>
        if q.2.congestion_level < p.2.congestion_level ∨
            (q.2.congestion_level = p.2.congestion_level ∧
              cyclicIndex p.1 < cyclicIndex q.1) then some p
        else some q) none).map Prod.fst

/-! ### String-keyed controller state

For decisions whose label may lie outside the approach set, the phase
dictionary is modelled exactly as Python's insertion-ordered dict.  This
is the model against which `update`'s handling of unknown labels is
checked. -/

/-- `self.directions` as label strings. -/
def pyDirections : List String := ["north", "east", "south", "west"]

/-- Insertion-ordered dict assignment `m[k] = v`. -/
def dictSet : List (String × LightState) → String → LightState → List (String × LightState)
  | [], k, v => [(k, v)]
  | (k', v') :: rest, k, v =>
      if k' = k then (k, v) :: rest else (k', v') :: dictSet rest k v

/-- The mutable fields of `TrafficLightController` with string-keyed
phases. -/
structure PSt where
  phases : List (String × LightState)
  current_green_direction : String
  green_duration : ℤ
  last_change_time : ℤ
  now : ℤ
  running : Bool
  auto_mode : Bool
deriving DecidableEq, Repr

/-- Initial state built by `__init__` (string-keyed). -/
def pinit : PSt where
  phases := [("north", .GREEN), ("east", .RED), ("south", .RED), ("west", .RED)]
  current_green_direction := "north"
  green_duration := 30
  last_change_time := 0
  now := 0
  running := true
  auto_mode := true

/-- A `_change_to_*` call on the string-keyed state. -/
def pChangeTo (s : PSt) (d : String) (ls : LightState) : PSt :=
  { s with phases := dictSet s.phases d ls }

/-- One iteration of `update`'s loop `for d in self.directions: if d !=
direction and state[d] != RED: change d to red`. -/
def forceRedStep (direction : String) (st : PSt) (d : String) : PSt :=
  if d ≠ direction ∧ List.lookup d st.phases ≠ some .RED then
    pChangeTo st d .RED
  else st

/-- `TrafficLightController.update(decision)` on the string-keyed state,
with the internal `sleep(yellow_time)` folded into the wall clock.  The
method performs no validation of `direction` and raises no error. -/
def pupdate (c : Config) (s : PSt) (direction : String) (green_time : ℤ) : PSt :=
  let g' := max (min green_time c.max_green_time) c.min_green_time
  if direction = s.current_green_direction ∧
      List.lookup direction s.phases = some .GREEN then
    { s with green_duration := g', auto_mode := true }
  else
    let s1 :=
      if List.lookup s.current_green_direction s.phases = some .GREEN then
        let sy := pChangeTo s s.current_green_direction .YELLOW
        let sy2 := { sy with now := sy.now + c.yellow_time }
        pChangeTo sy2 s.current_green_direction .RED
      else s
    let s2 := pyDirections.foldl (forceRedStep direction) s1
    let s3 := pChangeTo s2 direction .GREEN
    { s3 with current_green_direction := direction,
              green_duration := g',
              last_change_time := s3.now,
              auto_mode := true }

/-! ### Safety invariant of the typed controller -/

/-- Every non-red approach is the active one. -/
def OnlyActiveNonRed (s : CState) : Prop :=
  ∀ d, s.phases d ≠ .RED → d = s.current_green_direction

/-- While an `update` call sleeps for clearance, the active approach has
already left green. -/
def MidUpdateNotGreen (s : CState) : Prop :=
  ∀ d g, s.mode = .midUpdate d g → s.phases s.current_green_direction ≠ .GREEN

/-- The inductive invariant. -/
def Inv (s : CState) : Prop := OnlyActiveNonRed s ∧ MidUpdateNotGreen s

theorem setPhase_self (p : Direction → LightState) (d : Direction) (ls : LightState) :
    setPhase p d ls d = ls := by
  simp [setPhase]

theorem setPhase_ne (p : Direction → LightState) (d d' : Direction) (ls : LightState)
    (h : d' ≠ d) : setPhase p d ls d' = p d' := by
  simp [setPhase, h]

theorem forceOthersRed_ne (p : Direction → LightState) (d d' : Direction) (h : d' ≠ d) :
    forceOthersRed p d d' = .RED := by
  unfold forceOthersRed
  by_cases hp : p d' = .RED
  · simp [h, hp]
  · simp [h, hp]

theorem inv_initState (c : Config) : Inv (initState c) := by
  constructor
  · intro d hd
    dsimp only [initState] at hd ⊢
    by_cases hdn : d = Direction.north
    · exact hdn
    · simp [hdn] at hd
  · intro d g hm
    simp [initState] at hm

theorem inv_step (c : Config) (s : CState) (e : Ev) (h : Inv s) : Inv (stepF c s e) := by
  obtain ⟨h1, h2⟩ := h
  cases e with
  | tick t =>
      simp only [stepF, tickStep]
      split
      · refine ⟨fun d hd => ?_, fun d' g' hm => ?_⟩
        · dsimp only at hd ⊢
          exact h1 d hd
        · dsimp only at hm ⊢
          exact h2 d' g' hm
      · exact ⟨h1, h2⟩
  | auto =>
      simp only [stepF, autoStep]
      split_ifs with hguard hgreen helapsed hyellow hel2 <;>
        try exact ⟨h1, h2⟩
      · -- green expired: active turns yellow
        refine ⟨fun d hd => ?_, fun d' g' hm => ?_⟩
        · dsimp only at hd ⊢
          by_cases hdc : d = s.current_green_direction
          · exact hdc
          · rw [setPhase_ne _ _ _ _ hdc] at hd
            exact h1 d hd
        · dsimp only at hm
          rw [hguard.2.2] at hm
          cases hm
      · -- yellow expired: rotate to the cyclic successor
        refine ⟨fun d hd => ?_, fun d' g' hm => ?_⟩
        · dsimp only at hd ⊢
          by_cases hdn : d = s.current_green_direction.next
          · exact hdn
          · rw [setPhase_ne _ _ _ _ hdn] at hd
            by_cases hdc : d = s.current_green_direction
            · rw [hdc, setPhase_self] at hd
              exact absurd rfl hd
            · rw [setPhase_ne _ _ _ _ hdc] at hd
              exact absurd (h1 d hd) hdc
        · dsimp only at hm
          rw [hguard.2.2] at hm
          cases hm
  | updStart d g =>
      simp only [stepF, updStartStep]
      split_ifs with hidle hsame hgreen
      · -- only the committed duration changes
        exact ⟨h1, h2⟩
      · -- active turns yellow, update enters its sleeping stage
        refine ⟨fun d' hd => ?_, fun d' g' hm => ?_⟩
        · dsimp only at hd ⊢
          by_cases hdc : d' = s.current_green_direction
          · exact hdc
          · rw [setPhase_ne _ _ _ _ hdc] at hd
            exact h1 d' hd
        · dsimp only
          rw [setPhase_self]
          simp
      · -- immediate switch (active approach was not green)
        refine ⟨fun d' hd => ?_, fun d' g' hm => ?_⟩
        · dsimp only at hd ⊢
          by_cases hdc : d' = d
          · exact hdc
          · rw [setPhase_ne _ _ _ _ hdc, forceOthersRed_ne _ _ _ hdc] at hd
            exact absurd rfl hd
        · dsimp only at hm
          rw [hidle] at hm
          cases hm
      · exact ⟨h1, h2⟩
  | updFinish =>
      simp only [stepF, updFinishStep]
      cases hm : s.mode with
      | idle => exact ⟨h1, h2⟩
      | midUpdate d g' =>
          refine ⟨fun d' hd => ?_, fun d' g'' hmm => ?_⟩
          · dsimp only at hd ⊢
            by_cases hdc : d' = d
            · exact hdc
            · rw [setPhase_ne _ _ _ _ hdc, forceOthersRed_ne _ _ _ hdc] at hd
              exact absurd rfl hd
          · dsimp only at hmm
            cases hmm
  | reset =>
      refine ⟨fun d hd => ?_, fun d' g' hm => ?_⟩
      · dsimp only [stepF, resetStep] at hd
        exact absurd rfl hd
      · dsimp only [stepF, resetStep] at hm ⊢
        simp

theorem inv_run (c : Config) (s : CState) (evs : List Ev) (h : Inv s) :
    Inv (run c s evs) := by
  induction evs generalizing s with
  | nil => exact h
  | cons e rest ih => exact ih _ (inv_step c s e h)

/-- C1: for every state reachable from the initial state (north green,
all other approaches red) by any sequence of autonomous timer
transitions, update calls and reset calls, at most one approach holds
GREEN or YELLOW at any instant, and every other approach holds RED. -/
theorem C1_single_nonred_approach (c : Config) (t : CState) (h : Reachable c t)
    (a b : Direction)
    (ha : t.phases a = .GREEN ∨ t.phases a = .YELLOW)
    (hb : t.phases b = .GREEN ∨ t.phases b = .YELLOW) :
    a = b ∧ ∀ d, d ≠ a → t.phases d = .RED := by
  obtain ⟨evs, rfl⟩ := h
  have hi := inv_run c (initState c) evs (inv_initState c)
  have hra : (run c (initState c) evs).phases a ≠ .RED := by
    rcases ha with h' | h' <;> simp [h']
  have hrb : (run c (initState c) evs).phases b ≠ .RED := by
    rcases hb with h' | h' <;> simp [h']
  have hab : a = b := by rw [hi.1 a hra, hi.1 b hrb]
  refine ⟨hab, fun d hd => ?_⟩
  by_contra hdr
  exact hd (by rw [hi.1 d hdr, hi.1 a hra])

theorem C1_single_nonred_approach_witness :
    ((initState cfg0).phases .north = .GREEN ∨ (initState cfg0).phases .north = .YELLOW) ∧
    (Direction.north = Direction.north ∧
      ∀ d, d ≠ Direction.north → (initState cfg0).phases d = .RED) :=
  ⟨Or.inl rfl,
    C1_single_nonred_approach cfg0 (initState cfg0) ⟨[], rfl⟩ .north .north
      (Or.inl rfl) (Or.inl rfl)⟩

/-- C2 (amended): no approach ever moves from GREEN directly to RED in a
single autonomous transition or update step: an intervening YELLOW phase
always occurs.  (The duration bound of the original claim is dropped: the
yellow may be cut short of `yellow_time` when an update call arrives
while the approach is already yellow, as the counterexample shows.) -/
theorem C2_no_direct_green_to_red (c : Config) (t : CState) (h : Reachable c t)
    (e : Ev) (he : e ≠ .reset) (a : Direction)
    (hg : t.phases a = .GREEN) : (stepF c t e).phases a ≠ .RED := by
  obtain ⟨evs, rfl⟩ := h
  have hi := inv_run c (initState c) evs (inv_initState c)
  set s := run c (initState c) evs with hs
  have hact : a = s.current_green_direction := hi.1 a (by simp [hg])
  cases e with
  | tick t' =>
      simp only [stepF, tickStep]
      split <;> simp [hg]
  | auto =>
      simp only [stepF, autoStep]
      split_ifs with hguard hgreen helapsed hyellow hel2
      · -- green expired: a (= active) turns yellow, not red
        dsimp only
        rw [hact, setPhase_self]
        simp
      · simp [hg]
      · -- yellow expired: the active approach is yellow, so a is not green
        rw [← hact, hg] at hyellow
        cases hyellow
      · simp [hg]
      · simp [hg]
      · simp [hg]
  | updStart d g =>
      simp only [stepF, updStartStep]
      split_ifs with hidle hsame hgreen
      · -- duration-only branch: phases unchanged
        dsimp only
        simp [hg]
      · -- a (= active) turns yellow, not red
        dsimp only
        rw [hact, setPhase_self]
        simp
      · -- unreachable: the active approach holds green yet this branch
        -- requires it not to
        rw [← hact, hg] at hgreen
        cases hgreen rfl
      · simp [hg]
  | updFinish =>
      simp only [stepF, updFinishStep]
      cases hm : s.mode with
      | idle => simp [hg]
      | midUpdate d g' =>
          exact absurd (hact ▸ hg) (hi.2 d g' hm)
  | reset => exact absurd rfl he

theorem C2_no_direct_green_to_red_witness :
    Ev.auto ≠ Ev.reset ∧ (initState cfg0).phases .north = .GREEN ∧
    (stepF cfg0 (initState cfg0) .auto).phases .north ≠ .RED :=
  ⟨by decide, rfl,
    C2_no_direct_green_to_red cfg0 (initState cfg0) ⟨[], rfl⟩ .auto (by decide) .north rfl⟩

/-- C2 counterexample: the original claim is false.  With the shipped
configuration (`yellow_time = 3`), let the autonomous timer turn north
yellow at time 30, then call update for east at time 31 while north is
still yellow: `update` forces north from yellow straight to red, so
north's green-to-red sequence had a yellow phase of only 1 second,
less than the configured clearance duration. -/
theorem C2_counterexample :
    ¬ YellowClearanceRespected cfg0
      [Ev.tick 30, Ev.auto, Ev.tick 31, Ev.updStart .east 25] := by
  intro h
  have hfalse : yellowRespected cfg0.yellow_time
      (phaseHistory cfg0 [Ev.tick 30, Ev.auto, Ev.tick 31, Ev.updStart .east 25]
        .north) = false := by decide
  rw [h .north] at hfalse
  cases hfalse

/-- C3: an update call whose target approach is already the active green
approach only changes the committed green duration, to the requested
value clamped into the configured bounds (never rejected); every phase,
the active approach, the timestamps and the running flag are unchanged,
and repeating the same call is idempotent. -/
theorem C3_update_already_green (c : Config) (s : CState) (d : Direction) (g : ℤ)
    (hmode : s.mode = .idle) (hact : s.current_green_direction = d)
    (hg : s.phases d = .GREEN) (hcfg : c.min_green_time ≤ c.max_green_time) :
    (stepF c s (.updStart d g)).phases = s.phases ∧
    (stepF c s (.updStart d g)).current_green_direction = s.current_green_direction ∧
    (stepF c s (.updStart d g)).last_change_time = s.last_change_time ∧
    (stepF c s (.updStart d g)).now = s.now ∧
    (stepF c s (.updStart d g)).running = s.running ∧
    (stepF c s (.updStart d g)).mode = s.mode ∧
    (stepF c s (.updStart d g)).green_duration = clampGreen c g ∧
    c.min_green_time ≤ clampGreen c g ∧ clampGreen c g ≤ c.max_green_time ∧
    stepF c (stepF c s (.updStart d g)) (.updStart d g) = stepF c s (.updStart d g) := by
  have hcond : d = s.current_green_direction ∧ s.phases d = .GREEN := ⟨hact.symm, hg⟩
  have hstep : stepF c s (.updStart d g) =
      { s with green_duration := clampGreen c g, auto_mode := true } := by
    dsimp only [stepF, updStartStep]
    rw [if_pos hmode, if_pos hcond]
  have hstep2 : stepF c { s with green_duration := clampGreen c g, auto_mode := true }
      (.updStart d g) = { s with green_duration := clampGreen c g, auto_mode := true } := by
    dsimp only [stepF, updStartStep]
    rw [if_pos hmode, if_pos hcond]
  rw [hstep]
  exact ⟨rfl, rfl, rfl, rfl, rfl, rfl, rfl, le_max_right _ _,
    max_le (min_le_right _ _) hcfg, hstep2⟩

theorem C3_update_already_green_witness :
    (initState cfg0).mode = .idle ∧
    (initState cfg0).current_green_direction = .north ∧
    (initState cfg0).phases .north = .GREEN ∧
    cfg0.min_green_time ≤ cfg0.max_green_time ∧
    ((stepF cfg0 (initState cfg0) (.updStart .north 200)).phases = (initState cfg0).phases ∧
     (stepF cfg0 (initState cfg0) (.updStart .north 200)).current_green_direction =
       (initState cfg0).current_green_direction ∧
     (stepF cfg0 (initState cfg0) (.updStart .north 200)).last_change_time =
       (initState cfg0).last_change_time ∧
     (stepF cfg0 (initState cfg0) (.updStart .north 200)).now = (initState cfg0).now ∧
     (stepF cfg0 (initState cfg0) (.updStart .north 200)).running = (initState cfg0).running ∧
     (stepF cfg0 (initState cfg0) (.updStart .north 200)).mode = (initState cfg0).mode ∧
     (stepF cfg0 (initState cfg0) (.updStart .north 200)).green_duration = clampGreen cfg0 200 ∧
     cfg0.min_green_time ≤ clampGreen cfg0 200 ∧ clampGreen cfg0 200 ≤ cfg0.max_green_time ∧
     stepF cfg0 (stepF cfg0 (initState cfg0) (.updStart .north 200)) (.updStart .north 200) =
       stepF cfg0 (initState cfg0) (.updStart .north 200)) :=
  ⟨rfl, rfl, rfl, by decide,
    C3_update_already_green cfg0 (initState cfg0) .north 200 rfl rfl rfl (by decide)⟩

theorem running_false_step (c : Config) (s : CState) (e : Ev)
    (h : s.running = false) : (stepF c s e).running = false := by
  cases e with
  | tick t =>
      simp only [stepF, tickStep]
      split <;> exact h
  | auto =>
      simp only [stepF, autoStep]
      split_ifs <;> exact h
  | updStart d g =>
      simp only [stepF, updStartStep]
      split_ifs <;> exact h
  | updFinish =>
      simp only [stepF, updFinishStep]
      cases hm : s.mode <;> exact h
  | reset => rfl

theorem running_false_run (c : Config) (s : CState) (evs : List Ev)
    (h : s.running = false) : (run c s evs).running = false := by
  induction evs generalizing s with
  | nil => exact h
  | cons e rest ih => exact ih _ (running_false_step c s e h)

/-- C9: after a reset event completes, every approach reports RED, and in
every state subsequently reachable (by any events, without
re-initialization) the autonomous timer transition is a no-op: reset is
terminal for the autonomous timer. -/
theorem C9_reset_terminal (c : Config) (s t : CState)
    (h : ReachableFrom c (stepF c s .reset) t) :
    (∀ a, (stepF c s .reset).phases a = .RED) ∧ stepF c t .auto = t := by
  refine ⟨fun a => rfl, ?_⟩
  obtain ⟨evs, rfl⟩ := h
  have hrun : (run c (resetStep s) evs).running = false :=
    running_false_run c _ evs rfl
  simp [stepF, autoStep, hrun]

theorem C9_reset_terminal_witness :
    (∀ a, (stepF cfg0 (initState cfg0) .reset).phases a = .RED) ∧
    stepF cfg0 (stepF cfg0 (initState cfg0) .reset) .auto =
      stepF cfg0 (initState cfg0) .reset :=
  C9_reset_terminal cfg0 (initState cfg0) _ ⟨[], rfl⟩

/-! ### Properties of `make_decision`'s selection scan -/

theorem findMC_all_le (l : List (String × Reading)) (m : ℚ) (best : Option String)
    (h : ∀ p ∈ l, p.2.congestion_level ≤ m) :
    findMostCongested l m best = (m, best) := by
  induction l with
  | nil => rfl
  | cons p rest ih =>
      obtain ⟨d, st⟩ := p
      have hp := h (d, st) (List.mem_cons_self _ _)
      simp only [findMostCongested]
      rw [if_neg (not_lt.mpr hp)]
      exact ih fun q hq => h q (List.mem_cons_of_mem _ hq)

theorem findMC_found (l : List (String × Reading)) :
    ∀ (m : ℚ) (best : Option String), (∃ q ∈ l, m < q.2.congestion_level) →
    ∃ pre p suf, l = pre ++ p :: suf ∧
      findMostCongested l m best = (p.2.congestion_level, some p.1) ∧
      m < p.2.congestion_level ∧
      (∀ q ∈ pre, q.2.congestion_level ≤ m ∨
        q.2.congestion_level < p.2.congestion_level) ∧
      (∀ q ∈ l, q.2.congestion_level ≤ p.2.congestion_level) := by
  induction l with
  | nil => intro m best h; simp at h
  | cons hd rest ih =>
      intro m best h
      obtain ⟨d, st⟩ := hd
      by_cases hlt : m < st.congestion_level
      · by_cases hrest : ∃ q ∈ rest, st.congestion_level < q.2.congestion_level
        · obtain ⟨pre, p, suf, heq, hfmc, hm, hpre, hall⟩ :=
            ih st.congestion_level (some d) hrest
          refine ⟨(d, st) :: pre, p, suf, by rw [heq, List.cons_append], ?_,
            lt_trans hlt hm, ?_, ?_⟩
          · simp only [findMostCongested]
            rw [if_pos hlt]
            exact hfmc
          · intro q hq
            rcases List.mem_cons.mp hq with rfl | hq'
            · exact Or.inr hm
            · rcases hpre q hq' with h' | h'
              · exact Or.inr (lt_of_le_of_lt h' hm)
              · exact Or.inr h'
          · intro q hq
            rcases List.mem_cons.mp hq with rfl | hq'
            · exact le_of_lt hm
            · exact hall q hq'
        · push_neg at hrest
          refine ⟨[], (d, st), rest, rfl, ?_, hlt, by simp, ?_⟩
          · simp only [findMostCongested]
            rw [if_pos hlt]
            exact findMC_all_le rest st.congestion_level (some d) hrest
          · intro q hq
            rcases List.mem_cons.mp hq with rfl | hq'
            · exact le_refl _
            · exact hrest q hq'
      · have hrest : ∃ q ∈ rest, m < q.2.congestion_level := by
          obtain ⟨q, hq, hmq⟩ := h
          rcases List.mem_cons.mp hq with rfl | hq'
          · exact absurd hmq hlt
          · exact ⟨q, hq', hmq⟩
        obtain ⟨pre, p, suf, heq, hfmc, hm, hpre, hall⟩ := ih m best hrest
        refine ⟨(d, st) :: pre, p, suf, by rw [heq, List.cons_append], ?_, hm, ?_, ?_⟩
        · simp only [findMostCongested]
          rw [if_neg hlt]
          exact hfmc
        · intro q hq
          rcases List.mem_cons.mp hq with rfl | hq'
          · exact Or.inl (not_lt.mp hlt)
          · exact hpre q hq'
        · intro q hq
          rcases List.mem_cons.mp hq with rfl | hq'
          · exact le_trans (not_lt.mp hlt) (le_of_lt hm)
          · exact hall q hq'

theorem pyInt_eq_floor (q : ℚ) (h : 0 ≤ q) : pyInt q = ⌊q⌋ := by
  rw [pyInt, if_neg (not_lt.mpr h)]

/-- C5 (amended): for every non-empty readings mapping whose congestion
levels are the analyzer's (they lie in `[0, 1]`, and nonnegativity is all
that is used), the green duration returned by `make_decision` equals
`20 + floor(congestion_level_of_selected_approach * 40)` with NO clamping
applied: `make_decision` never consults `min_green_time`/`max_green_time`;
the controller clamps the duration later, inside `update`. -/
theorem C5_green_time_formula (readings : List (String × Reading))
    (hne : readings ≠ [])
    (h0 : ∀ p ∈ readings, 0 ≤ p.2.congestion_level) :
    ∃ p ∈ readings, make_decision readings = (p.1, 20 + ⌊p.2.congestion_level * 40⌋) ∧
      ∀ q ∈ readings, q.2.congestion_level ≤ p.2.congestion_level := by
  obtain ⟨q0, hq0⟩ := List.exists_mem_of_ne_nil readings hne
  have hex : ∃ q ∈ readings, (-1 : ℚ) < q.2.congestion_level :=
    ⟨q0, hq0, lt_of_lt_of_le (by norm_num) (h0 q0 hq0)⟩
  obtain ⟨pre, p, suf, heq, hfmc, _, _, hall⟩ := findMC_found readings (-1) none hex
  have hp : p ∈ readings := by
    rw [heq]; exact List.mem_append_right _ (List.mem_cons_self _ _)
  refine ⟨p, hp, ?_, hall⟩
  have h40 : (0 : ℚ) ≤ p.2.congestion_level * 40 :=
    mul_nonneg (h0 p hp) (by norm_num)
  simp only [make_decision, hfmc]
  rw [pyInt_eq_floor _ h40]

theorem C5_green_time_formula_witness :
    ([("north", (⟨10, 10, 1⟩ : Reading))] ≠ []) ∧
    (∀ p ∈ [("north", (⟨10, 10, 1⟩ : Reading))], (0:ℚ) ≤ p.2.congestion_level) ∧
    ∃ p ∈ [("north", (⟨10, 10, 1⟩ : Reading))],
      make_decision [("north", (⟨10, 10, 1⟩ : Reading))] =
        (p.1, 20 + ⌊p.2.congestion_level * 40⌋) ∧
      ∀ q ∈ [("north", (⟨10, 10, 1⟩ : Reading))],
        q.2.congestion_level ≤ p.2.congestion_level :=
  ⟨List.cons_ne_nil _ _, by simp,
    C5_green_time_formula _ (List.cons_ne_nil _ _) (by simp)⟩

/-- The shipped configuration with a lowered maximum green time, a legal
deployment configuration used to exhibit the missing clamp. -/
def cfgMax30 : Config := ⟨20, 10, 30, 3⟩

/-- C5 counterexample: the claim as stated is false.  On readings with a
saturated approach (`congestion_level = 1`), `make_decision` returns 60
seconds even when `max_green_time = 30`, so the returned green duration
is not clamped into `[min_green, max_green]`. -/
theorem C5_counterexample :
    (make_decision [("north", (⟨10, 10, 1⟩ : Reading))]).2 = 60 ∧
    clampGreen cfgMax30 (make_decision [("north", (⟨10, 10, 1⟩ : Reading))]).2 = 30 ∧
    (make_decision [("north", (⟨10, 10, 1⟩ : Reading))]).2 ≠
      clampGreen cfgMax30 (make_decision [("north", (⟨10, 10, 1⟩ : Reading))]).2 := by
  have h : make_decision [("north", (⟨10, 10, 1⟩ : Reading))] = ("north", 60) := by
    norm_num [make_decision, findMostCongested, pyInt]
  rw [h]
  refine ⟨rfl, by norm_num [clampGreen, cfgMax30], by norm_num [clampGreen, cfgMax30]⟩

/-- C6 (amended): `make_decision` selects an approach achieving the
greatest congestion level, deterministically — but ties are broken by the
FIRST position in the readings mapping's iteration (insertion) order, not
by lowest index in the fixed cyclic ordering: every entry strictly before
the selected one has strictly smaller congestion level. -/
theorem C6_first_argmax (readings : List (String × Reading))
    (hne : readings ≠ [])
    (h0 : ∀ p ∈ readings, 0 ≤ p.2.congestion_level) :
    ∃ pre p suf, readings = pre ++ p :: suf ∧
      (make_decision readings).1 = p.1 ∧
      (∀ q ∈ pre, q.2.congestion_level < p.2.congestion_level) ∧
      (∀ q ∈ readings, q.2.congestion_level ≤ p.2.congestion_level) := by
  obtain ⟨q0, hq0⟩ := List.exists_mem_of_ne_nil readings hne
  have hex : ∃ q ∈ readings, (-1 : ℚ) < q.2.congestion_level :=
    ⟨q0, hq0, lt_of_lt_of_le (by norm_num) (h0 q0 hq0)⟩
  obtain ⟨pre, p, suf, heq, hfmc, _, hpre, hall⟩ := findMC_found readings (-1) none hex
  refine ⟨pre, p, suf, heq, ?_, ?_, hall⟩
  · simp only [make_decision, hfmc]
  · intro q hq
    have hqr : q ∈ readings := by
      rw [heq]; exact List.mem_append_left _ hq
    rcases hpre q hq with h' | h'
    · exact absurd (le_trans (h0 q hqr) h') (by norm_num)
    · exact h'

theorem C6_first_argmax_witness :
    ([("east", (⟨1, 1, 1⟩ : Reading))] ≠ []) ∧
    (∀ p ∈ [("east", (⟨1, 1, 1⟩ : Reading))], (0:ℚ) ≤ p.2.congestion_level) ∧
    ∃ pre p suf, [("east", (⟨1, 1, 1⟩ : Reading))] = pre ++ p :: suf ∧
      (make_decision [("east", (⟨1, 1, 1⟩ : Reading))]).1 = p.1 ∧
      (∀ q ∈ pre, q.2.congestion_level < p.2.congestion_level) ∧
      (∀ q ∈ [("east", (⟨1, 1, 1⟩ : Reading))],
        q.2.congestion_level ≤ p.2.congestion_level) :=
  ⟨List.cons_ne_nil _ _, by simp,
    C6_first_argmax _ (List.cons_ne_nil _ _) (by simp)⟩

/-- C6 counterexample: the claimed cyclic-order tie-break is false.  On
readings listing east before north with equal congestion levels,
`make_decision` selects east (first in iteration order) while the spec's
tie-break rule selects north (lowest cyclic index). -/
theorem C6_counterexample :
    (make_decision [("east", (⟨1, 1, 1⟩ : Reading)), ("north", (⟨1, 1, 1⟩ : Reading))]).1
      = "east" ∧
    specTieBreakSelect [("east", (⟨1, 1, 1⟩ : Reading)), ("north", (⟨1, 1, 1⟩ : Reading))]
      = some "north" ∧
    ("east" : String) ≠ "north" := by
  refine ⟨?_, by decide, by decide⟩
  norm_num [make_decision, findMostCongested]

/-- A configuration whose `default_green_time` is 45 seconds, used to
exhibit that `make_decision`'s empty-readings fallback ignores it. -/
def cfg45 : Config := ⟨45, 10, 90, 3⟩

/-- C7 counterexample: the claim as stated is false.  On empty readings
`make_decision` always returns 30 seconds — a hardcoded constant — even
when the configured `default_green_time` is 45, so the fallback green
duration does not equal the configured `default_green_time`. -/
theorem C7_counterexample :
    make_decision [] = ("north", 30) ∧ cfg45.default_green_time = 45 ∧
    (make_decision []).2 ≠ cfg45.default_green_time := by
  refine ⟨rfl, rfl, ?_⟩
  intro h
  cases h

/-- C7 (amended): on the empty readings mapping `make_decision` returns
the fallback decision (north — the first approach in the fixed cyclic
order — with a green time of 30 seconds, hardcoded in `make_decision`;
this coincides with `default_green_time` only when that option keeps its
default value 30).  The fallback is an ordinary return, not an error. -/
theorem C7_empty_fallback :
    make_decision [] = ("north", 30) ∧ pyDirections.head? = some "north" :=
  ⟨rfl, rfl⟩

/-- C10: on a non-empty readings mapping in which every congestion level
is 0.0, `make_decision` does not fall back to the default decision: it
selects the first approach in iteration order with a green time of 20
seconds, and the scan's selected approach is not `none` (the fallback
path is taken only for the empty mapping). -/
theorem C10_zero_congestion (readings : List (String × Reading))
    (p0 : String × Reading) (rest : List (String × Reading))
    (hcons : readings = p0 :: rest)
    (hz : ∀ p ∈ readings, p.2.congestion_level = 0) :
    make_decision readings = (p0.1, 20) ∧
    (findMostCongested readings (-1) none).2 ≠ none := by
  subst hcons
  have hp0 : p0.2.congestion_level = 0 := hz p0 (List.mem_cons_self _ _)
  have hfmc : findMostCongested (p0 :: rest) (-1) none =
      (p0.2.congestion_level, some p0.1) := by
    obtain ⟨d, st⟩ := p0
    simp only [findMostCongested]
    rw [if_pos (by rw [show st.congestion_level = 0 from hp0]; norm_num)]
    exact findMC_all_le rest st.congestion_level (some d) fun q hq => by
      rw [hz q (List.mem_cons_of_mem _ hq), show st.congestion_level = 0 from hp0]
  constructor
  · simp only [make_decision, hfmc]
    rw [hp0]
    norm_num [pyInt]
  · rw [hfmc]
    simp

theorem C10_zero_congestion_witness :
    ([("west", (⟨0, 0, 0⟩ : Reading))] =
      ("west", (⟨0, 0, 0⟩ : Reading)) :: []) ∧
    (∀ p ∈ [("west", (⟨0, 0, 0⟩ : Reading))], p.2.congestion_level = 0) ∧
    (make_decision [("west", (⟨0, 0, 0⟩ : Reading))] = ("west", 20) ∧
      (findMostCongested [("west", (⟨0, 0, 0⟩ : Reading))] (-1) none).2 ≠ none) :=
  ⟨rfl, by simp,
    C10_zero_congestion _ ("west", (⟨0, 0, 0⟩ : Reading)) [] rfl (by simp)⟩

/-! ### Properties of `analyze` -/

theorem lookup_cons_ne {β : Type} (k k' : String) (v : β) (l : List (String × β))
    (h : k ≠ k') : List.lookup k ((k', v) :: l) = List.lookup k l := by
  rw [List.lookup_cons]
  simp [beq_false_of_ne h]

theorem analyze_keys (thr : ℚ) (counts : List (String × ℕ)) (hist : String → List ℕ) :
    (analyze thr counts hist).2.map Prod.fst = counts.map Prod.fst := by
  induction counts generalizing hist with
  | nil => rfl
  | cons p rest ih =>
      obtain ⟨k, n⟩ := p
      simp only [analyze, List.map_cons]
      rw [ih]

theorem analyze_hist_not_mem (thr : ℚ) (counts : List (String × ℕ))
    (hist : String → List ℕ) (k : String) (hk : k ∉ counts.map Prod.fst) :
    (analyze thr counts hist).1 k = hist k := by
  induction counts generalizing hist with
  | nil => rfl
  | cons p rest ih =>
      obtain ⟨k', n⟩ := p
      have hkk : k ≠ k' := fun h => hk (by simp [h])
      have hkr : k ∉ rest.map Prod.fst := fun h => hk (by simp [h])
      show (analyze thr rest (Function.update hist k' (pushCount (hist k') n))).1 k = hist k
      rw [ih _ hkr, Function.update_noteq hkk]

theorem analyze_lookup_not_mem (thr : ℚ) (counts : List (String × ℕ))
    (hist : String → List ℕ) (k : String) (hk : k ∉ counts.map Prod.fst) :
    List.lookup k (analyze thr counts hist).2 = none := by
  induction counts generalizing hist with
  | nil => rfl
  | cons p rest ih =>
      obtain ⟨k', n⟩ := p
      have hkk : k ≠ k' := fun h => hk (by simp [h])
      have hkr : k ∉ rest.map Prod.fst := fun h => hk (by simp [h])
      show List.lookup k ((k', readingOf thr (hist k') n) ::
        (analyze thr rest (Function.update hist k' (pushCount (hist k') n))).2) = none
      rw [lookup_cons_ne _ _ _ _ hkk]
      exact ih _ hkr

theorem analyze_mem (thr : ℚ) (counts : List (String × ℕ)) (hist : String → List ℕ)
    (k : String) (n : ℕ) (hnd : (counts.map Prod.fst).Nodup) (hmem : (k, n) ∈ counts) :
    (analyze thr counts hist).1 k = pushCount (hist k) n ∧
    List.lookup k (analyze thr counts hist).2 = some (readingOf thr (hist k) n) := by
  induction counts generalizing hist with
  | nil => cases hmem
  | cons p rest ih =>
      obtain ⟨k', n'⟩ := p
      have hnd2 : (k' :: rest.map Prod.fst).Nodup := by
        rw [List.map_cons] at hnd
        exact hnd
      have hnd' : (rest.map Prod.fst).Nodup := (List.nodup_cons.mp hnd2).2
      rcases List.mem_cons.mp hmem with heq | hmem'
      · injection heq with h1 h2
        subst h1
        subst h2
        have hk : k ∉ rest.map Prod.fst := (List.nodup_cons.mp hnd2).1
        constructor
        · show (analyze thr rest (Function.update hist k (pushCount (hist k) n))).1 k = _
          rw [analyze_hist_not_mem thr rest _ k hk, Function.update_same]
        · show List.lookup k ((k, readingOf thr (hist k) n) ::
            (analyze thr rest (Function.update hist k (pushCount (hist k) n))).2) = _
          simp [List.lookup]
      · have hk' : k ≠ k' := by
          intro h
          subst h
          exact (List.nodup_cons.mp hnd2).1
            (by simpa using List.mem_map_of_mem Prod.fst hmem')
        have hrec := ih (Function.update hist k' (pushCount (hist k') n')) hnd' hmem'
        rw [Function.update_noteq hk'] at hrec
        refine ⟨hrec.1, ?_⟩
        show List.lookup k ((k', readingOf thr (hist k') n') ::
          (analyze thr rest (Function.update hist k' (pushCount (hist k') n'))).2) = _
        rw [lookup_cons_ne _ _ _ _ hk']
        exact hrec.2

/-- C8: `analyze` appends each present approach's count to that
approach's history (evicting the oldest entry when the history exceeds 10
entries — `pushCount`), reports `moving_average` equal to the arithmetic
mean of the resulting history (hence equal to the instantaneous count on
a fresh empty history) and `congestion_level = min(moving_average /
congestion_threshold, 1)`, and leaves approaches absent from the counts
unreported with their histories unchanged. -/
theorem C8_analyze_reports (thr : ℚ) (hist : String → List ℕ)
    (counts : List (String × ℕ)) (hnd : (counts.map Prod.fst).Nodup) :
    ((analyze thr counts hist).2.map Prod.fst = counts.map Prod.fst) ∧
    (∀ k n, (k, n) ∈ counts →
      (analyze thr counts hist).1 k = pushCount (hist k) n ∧
      List.lookup k (analyze thr counts hist).2 =
        some ⟨n, listAvg (pushCount (hist k) n),
              min (listAvg (pushCount (hist k) n) / thr) 1⟩ ∧
      (hist k = [] → listAvg (pushCount (hist k) n) = (n : ℚ))) ∧
    (∀ k, k ∉ counts.map Prod.fst →
      (analyze thr counts hist).1 k = hist k ∧
      List.lookup k (analyze thr counts hist).2 = none) := by
  refine ⟨analyze_keys thr counts hist, ?_, fun k hk =>
    ⟨analyze_hist_not_mem thr counts hist k hk,
     analyze_lookup_not_mem thr counts hist k hk⟩⟩
  intro k n hmem
  obtain ⟨h1, h2⟩ := analyze_mem thr counts hist k n hnd hmem
  refine ⟨h1, h2, ?_⟩
  intro hk0
  rw [hk0]
  simp [pushCount, max_history, listAvg]

theorem C8_analyze_reports_witness :
    (([("north", 5), ("east", 15)].map Prod.fst).Nodup) ∧
    (((analyze 10 [("north", 5), ("east", 15)] fun _ => []).2.map Prod.fst =
        [("north", 5), ("east", 15)].map Prod.fst) ∧
     (∀ k n, (k, n) ∈ [("north", 5), ("east", 15)] →
        (analyze 10 [("north", 5), ("east", 15)] fun _ => []).1 k =
          pushCount ((fun _ => ([] : List ℕ)) k) n ∧
        List.lookup k (analyze 10 [("north", 5), ("east", 15)] fun _ => []).2 =
          some ⟨n, listAvg (pushCount ((fun _ => ([] : List ℕ)) k) n),
                min (listAvg (pushCount ((fun _ => ([] : List ℕ)) k) n) / 10) 1⟩ ∧
        ((fun _ => ([] : List ℕ)) k = [] →
          listAvg (pushCount ((fun _ => ([] : List ℕ)) k) n) = (n : ℚ))) ∧
     (∀ k, k ∉ [("north", 5), ("east", 15)].map Prod.fst →
        (analyze 10 [("north", 5), ("east", 15)] fun _ => []).1 k =
          (fun _ => ([] : List ℕ)) k ∧
        List.lookup k (analyze 10 [("north", 5), ("east", 15)] fun _ => []).2 = none)) :=
  ⟨by decide, C8_analyze_reports 10 (fun _ => []) [("north", 5), ("east", 15)] (by decide)⟩

/-! ### Dict lemmas for the string-keyed controller -/

theorem lookup_dictSet_self (m : List (String × LightState)) (k : String)
    (v : LightState) : List.lookup k (dictSet m k v) = some v := by
  induction m with
  | nil => simp [dictSet, List.lookup]
  | cons p rest ih =>
      obtain ⟨k', v'⟩ := p
      by_cases h : k' = k
      · subst h
        simp [dictSet, List.lookup]
      · simp only [dictSet, if_neg h]
        rw [lookup_cons_ne _ _ _ _ (Ne.symm h)]
        exact ih

theorem lookup_dictSet_ne (m : List (String × LightState)) (k k' : String)
    (v : LightState) (h : k ≠ k') :
    List.lookup k (dictSet m k' v) = List.lookup k m := by
  induction m with
  | nil =>
      simp only [dictSet]
      rw [lookup_cons_ne _ _ _ _ h]
  | cons p rest ih =>
      obtain ⟨k'', v''⟩ := p
      by_cases hk : k'' = k'
      · subst hk
        rw [show dictSet ((k'', v'') :: rest) k'' v = (k'', v) :: rest from by
          simp [dictSet]]
        rw [lookup_cons_ne _ _ _ _ h, lookup_cons_ne _ _ _ _ h]
      · simp only [dictSet, if_neg hk]
        by_cases hkk : k = k''
        · subst hkk
          simp [List.lookup]
        · rw [lookup_cons_ne _ _ _ _ hkk, lookup_cons_ne _ _ _ _ hkk]
          exact ih

theorem forceRedFold_not_mem (direction : String) (keys : List String) (st : PSt)
    (d : String) (hd : d ∉ keys) :
    List.lookup d (keys.foldl (forceRedStep direction) st).phases =
      List.lookup d st.phases := by
  induction keys generalizing st with
  | nil => rfl
  | cons k rest ih =>
      have hdk : d ≠ k := fun h => hd (h ▸ List.mem_cons_self _ _)
      have hdr : d ∉ rest := fun h => hd (List.mem_cons_of_mem _ h)
      rw [List.foldl_cons, ih _ hdr]
      unfold forceRedStep
      split_ifs with h
      · exact lookup_dictSet_ne _ _ _ _ hdk
      · rfl

theorem forceRedFold_mem (direction : String) (keys : List String) (st : PSt)
    (d : String) (hnd : keys.Nodup) (hd : d ∈ keys) (hdd : d ≠ direction) :
    List.lookup d (keys.foldl (forceRedStep direction) st).phases = some .RED := by
  induction keys generalizing st with
  | nil => cases hd
  | cons k rest ih =>
      rcases List.mem_cons.mp hd with rfl | hd'
      · have hdr : d ∉ rest := (List.nodup_cons.mp hnd).1
        rw [List.foldl_cons, forceRedFold_not_mem direction rest _ d hdr]
        unfold forceRedStep
        split_ifs with h
        · exact lookup_dictSet_self _ _ _
        · push_neg at h
          exact h hdd
      · rw [List.foldl_cons]
        exact ih _ (List.nodup_cons.mp hnd).2 hd'

/-- C4 (amended): `update` performs no validation of the approach label:
a decision carrying a label outside the fixed approach set is not
rejected and no error is signalled (the method is total).  Instead the
state IS mutated: the unknown label is inserted into the phase dictionary
as GREEN and becomes the active approach, every approach of the fixed set
ends RED, and the clamped duration is committed. -/
theorem C4_unknown_label_applied (c : Config) (s : PSt) (lbl : String) (g : ℤ)
    (hl : lbl ∉ pyDirections) (hne : lbl ≠ s.current_green_direction) :
    (pupdate c s lbl g).current_green_direction = lbl ∧
    List.lookup lbl (pupdate c s lbl g).phases = some .GREEN ∧
    (∀ d ∈ pyDirections, List.lookup d (pupdate c s lbl g).phases = some .RED) ∧
    (pupdate c s lbl g).green_duration =
      max (min g c.max_green_time) c.min_green_time := by
  have hcond : ¬(lbl = s.current_green_direction ∧
      List.lookup lbl s.phases = some .GREEN) := fun h => hne h.1
  unfold pupdate
  rw [if_neg hcond]
  refine ⟨rfl, ?_, ?_, rfl⟩
  · exact lookup_dictSet_self _ _ _
  · intro d hd
    have hdl : d ≠ lbl := fun h => hl (h ▸ hd)
    show List.lookup d (dictSet (pyDirections.foldl (forceRedStep lbl) _).phases
      lbl .GREEN) = some .RED
    rw [lookup_dictSet_ne _ _ _ _ hdl]
    exact forceRedFold_mem lbl pyDirections _ d (by decide) hd hdl

theorem C4_unknown_label_applied_witness :
    (("center" : String) ∉ pyDirections) ∧
    (("center" : String) ≠ pinit.current_green_direction) ∧
    ((pupdate cfg0 pinit "center" 40).current_green_direction = "center" ∧
     List.lookup "center" (pupdate cfg0 pinit "center" 40).phases = some .GREEN ∧
     (∀ d ∈ pyDirections,
        List.lookup d (pupdate cfg0 pinit "center" 40).phases = some .RED) ∧
     (pupdate cfg0 pinit "center" 40).green_duration =
       max (min 40 cfg0.max_green_time) cfg0.min_green_time) :=
  ⟨by decide, by decide,
    C4_unknown_label_applied cfg0 pinit "center" 40 (by decide) (by decide)⟩

/-- C4 counterexample: the claim as stated is false.  A decision with the
unknown label "center" is not rejected: applying it to the initial state
mutates the state — "center" is inserted GREEN and becomes the active
approach while north (previously green) ends RED — and no configuration
error is raised (`update` is total and returns the mutated state). -/
theorem C4_counterexample :
    ("center" : String) ∉ pyDirections ∧
    pupdate cfg0 pinit "center" 40 ≠ pinit ∧
    (pupdate cfg0 pinit "center" 40).current_green_direction = "center" ∧
    List.lookup "center" (pupdate cfg0 pinit "center" 40).phases = some .GREEN ∧
    List.lookup "north" (pupdate cfg0 pinit "center" 40).phases = some .RED := by
  decide

end Traffic
